import Mathlib

/-! Definitions: shallow embedding of the splitter, the vector
store, and the retriever, plus the concrete fixtures the claim
witnesses use. -/

/-- Whitespace as recognised by Python `str.strip()` (space, tab, newline,
carriage return, vertical tab, form feed). -/
def isPyWs (c : Char) : Bool :=
  c = ' ' || c = '\t' || c = '\n' || c = '\r' || c = '\x0b' || c = '\x0c'

/-- Python `str.strip()` on a list of characters. -/
def pyStrip (l : List Char) : List Char :=
  ((l.dropWhile isPyWs).reverse.dropWhile isPyWs).reverse

/-- `text.rfind(". ", a, b)`: the largest index `i` with `a ≤ i`,
`i + 2 ≤ b`, `text[i] = '.'` and `text[i+1] = ' '`, or the Python
sentinel `-1` when there is none.  (Callers pass `b ≤ t.length`.) -/
def rfindDot (t : List Char) (a b : Nat) : Int :=
  (List.range t.length).foldl
    (fun acc i =>
      if a ≤ i ∧ i + 2 ≤ b ∧ t.getD i 'x' = '.' ∧ t.getD (i + 1) 'x' = ' '
      then (i : Int) else acc) (-1)

/-- `text.rfind("\n", a, b)` with the Python `-1` sentinel. -/
def rfindNl (t : List Char) (a b : Nat) : Int :=
  (List.range t.length).foldl
    (fun acc i =>
      if a ≤ i ∧ i + 1 ≤ b ∧ t.getD i 'x' = '\n' then (i : Int) else acc) (-1)

/-- End of one window of `_split_text` (`backend/app/ingestion/base.py`
lines 37-41): tentative end `min (start + maxS) t.length`, moved back to
one past the last sentence boundary (last ". " or newline in the window)
when that keeps the window at least `minS` characters long. -/
def splitEnd (t : List Char) (minS maxS start : Nat) : Nat :=
  let e0 := min (start + maxS) t.length
  let b := max (rfindDot t start e0) (rfindNl t start e0)
  if b ≠ -1 ∧ (minS : Int) ≤ b + 1 - (start : Int) then (b + 1).toNat else e0

/-- The while-loop of `_split_text`, fuelled; `none` means the fuel ran out
(the Python loop would still be running).  The Python restart
`start = max(0, end - overlap)` is natural-number subtraction here, which
clamps at 0 the same way. -/
def splitLoop (t : List Char) (minS maxS overlap : Nat) :
    Nat → Nat → Option (List (List Char))
  | 0, _ => none
  | fuel + 1, start =>
    if start < t.length then
      let e := splitEnd t minS maxS start
      let chunk := pyStrip ((t.drop start).take (e - start))
      let rest? :=
        if e = t.length then some []
        else splitLoop t minS maxS overlap fuel (e - overlap)
      match rest? with
      | none => none
      | some rest => some (if chunk.isEmpty then rest else chunk :: rest)
    else some []

/-- `_split_text(text, min_size, max_size, overlap_ratio)` of
`backend/app/ingestion/base.py`.  `overlap` is the already computed
`int(max_size * overlap_ratio)` — the single place the float ratio is
used.  Fuel `t.length + 1` suffices whenever the Python loop terminates
(proved below for the parameter ranges of claim C9). -/
def splitText (text : List Char) (minS maxS overlap : Nat) :
    Option (List (List Char)) :=
  let t := pyStrip text
  if t.isEmpty then some [] else splitLoop t minS maxS overlap (t.length + 1) 0

/-- Merge of two optional positions, keeping the larger (used by the
claim-side reading of the boundary rule). -/
def omax : Option Nat → Option Nat → Option Nat
  | none, y => y
  | some i, none => some i
  | some i, some j => some (max i j)

/-- Modelled from the claim's words: position of the last ". " inside
`[a, b)`, with no `-1` sentinel. -/
def lastDot (t : List Char) (a b : Nat) : Option Nat :=
  (List.range t.length).foldl
    (fun acc i =>
      if a ≤ i ∧ i + 2 ≤ b ∧ t.getD i 'x' = '.' ∧ t.getD (i + 1) 'x' = ' '
      then some i else acc) none

/-- Modelled from the claim's words: position of the last newline inside
`[a, b)`. -/
def lastNl (t : List Char) (a b : Nat) : Option Nat :=
  (List.range t.length).foldl
    (fun acc i =>
      if a ≤ i ∧ i + 1 ≤ b ∧ t.getD i 'x' = '\n' then some i else acc) none

/-- Window-end rule phrased as the claim states it: end the window at the
last ". " or newline inside it whenever that boundary keeps the window at
least `minS` characters long, otherwise at `min (start + maxS) t.length`. -/
def claimWindowEnd (t : List Char) (minS maxS start : Nat) : Nat :=
  let hardEnd := min (start + maxS) t.length
  match omax (lastDot t start hardEnd) (lastNl t start hardEnd) with
  | some i => if start + minS ≤ i + 1 then i + 1 else hardEnd
  | none => hardEnd

/-- Decimal digit characters of `n`, most significant first. -/
def decChars (n : Nat) : List Char :=
  if n < 10 then [Nat.digitChar n]
  else decChars (n / 10) ++ [Nat.digitChar (n % 10)]
termination_by n
decreasing_by exact Nat.div_lt_self (by omega) (by omega)

/-- A numpy embedding handed to `FAISSStore.upsert`: a 1-d vector or a 2-d
batch (list of rows).  `arr2` covers the `ndim == 2` branch of the source;
its `shape[1]` is the length of the first row. -/
inductive Embedding where
  | arr1 (v : List ℚ)
  | arr2 (m : List (List ℚ))
deriving DecidableEq

/-- The `item['metadata']` dict: every field the source reads with
`.get(key, default)`; `none` models an absent key. -/
structure MetaInput where
  page_content : Option String := none
  file_name : Option String := none
  file_type : Option String := none
  page_number : Option Int := none
  timestamp : Option String := none
  start_ts : Option ℚ := none
  end_ts : Option ℚ := none
  filepath : Option String := none
  width : Option Int := none
  height : Option Int := none
  bbox : Option String := none
  char_start : Option Int := none
  char_end : Option Int := none
  modality : Option String := none
deriving DecidableEq

/-- The record `faiss_store.py` lines 122-138 writes into `self.metadata`
under the key `str(vector_id)`. -/
structure MetaRecord where
  vector_id : Int
  page_content : String
  file_name : String
  file_type : String
  page_number : Option Int
  timestamp : Option String
  start_ts : Option ℚ
  end_ts : Option ℚ
  filepath : Option String
  width : Option Int
  height : Option Int
  bbox : Option String
  char_start : Option Int
  char_end : Option Int
  modality : String
deriving DecidableEq

/-- One element of the `items` list passed to `upsert`:
`item.get('embedding')` and `item.get('metadata', {})`. -/
structure Item where
  embedding : Option Embedding := none
  metadata : MetaInput := {}
deriving DecidableEq

/-- Build the stored record from `vector_id` and the item metadata,
applying the defaults of `faiss_store.py` lines 122-138. -/
def buildRecord (vid : Int) (m : MetaInput) : MetaRecord where
  vector_id := vid
  page_content := m.page_content.getD ""
  file_name := m.file_name.getD ""
  file_type := m.file_type.getD ""
  page_number := m.page_number
  timestamp := m.timestamp
  start_ts := m.start_ts
  end_ts := m.end_ts
  filepath := m.filepath
  width := m.width
  height := m.height
  bbox := m.bbox
  char_start := m.char_start
  char_end := m.char_end
  modality := m.modality.getD "text"

/-- Lookup in the metadata dict (`self.metadata.get(str(idx), {})` returns
the entry or, modelled as `none`, the empty merge). -/
def metaLookup (m : List (String × MetaRecord)) (k : String) : Option MetaRecord :=
  (m.find? (fun p => p.1 = k)).map (fun p => p.2)

/-- Python dict assignment `self.metadata[key] = rec`: overwrite in place
when the key exists, append otherwise (insertion order preserved). -/
def metaInsert (m : List (String × MetaRecord)) (k : String) (v : MetaRecord) :
    List (String × MetaRecord) :=
  if m.any (fun p => p.1 = k) then
    m.map (fun p => if p.1 = k then (k, v) else p)
  else m ++ [(k, v)]

/-- In-memory state of `FAISSStore`: the flat inner-product index
(vectors in insertion order, `ntotal = index.length`) and the metadata
dict keyed by `str(vector_id)`. -/
structure FAISSStore where
  dimension : Nat
  index : List (List ℚ)
  metadata : List (String × MetaRecord)
deriving DecidableEq

/-- A fresh store: empty `IndexFlatIP` and empty metadata. -/
def FAISSStore.empty (dimension : Nat) : FAISSStore :=
  { dimension := dimension, index := [], metadata := [] }

/-- The validation loop of `upsert` (lines 85-108): skip items whose
embedding is `None`; raise `ValueError` when an ndarray embedding's
dimension mismatches; a 2-d batch takes its first row.  Returns the
accepted embeddings paired with their metadata dicts. -/
def collectItems (dim : Nat) :
    List Item → Except String (List (List ℚ) × List MetaInput)
  | [] => .ok ([], [])
  | it :: rest =>
    match it.embedding with
    | none => collectItems dim rest
    | some (.arr1 v) =>
      if v.length ≠ dim then
        .error ("Embedding dimension mismatch: got " ++ toString v.length ++
          ", expected " ++ toString dim ++
          ". Ensure all embeddings use CLIP (512-dim).")
      else do
        let (es, ms) ← collectItems dim rest
        .ok (v :: es, it.metadata :: ms)
    | some (.arr2 m) =>
      if (m.headD []).length ≠ dim then
        .error ("Embedding dimension mismatch: got " ++
          toString (m.headD []).length ++ ", expected " ++ toString dim ++ ".")
      else do
        let (es, ms) ← collectItems dim rest
        .ok (m.headD [] :: es, it.metadata :: ms)

/-- Result of `upsert`: the return value, the new store state, and whether
the store was persisted to disk (`_save_metadata` / `_persist_index`). -/
structure UpsertResult where
  count : Nat
  store : FAISSStore
  persisted : Bool
deriving DecidableEq

instance {ε α : Type} [DecidableEq ε] [DecidableEq α] : DecidableEq (Except ε α)
  | .error x, .error y =>
    if h : x = y then .isTrue (h ▸ rfl) else .isFalse (fun hc => h (by cases hc; rfl))
  | .ok x, .ok y =>
    if h : x = y then .isTrue (h ▸ rfl) else .isFalse (fun hc => h (by cases hc; rfl))
  | .error _, .ok _ => .isFalse (fun hc => Except.noConfusion hc)
  | .ok _, .error _ => .isFalse (fun hc => Except.noConfusion hc)

/-- Write the validated batch metadata into the dict, one
`self.metadata[str(start_id + i)] = record` assignment per item
(`faiss_store.py` lines 120-138). -/
def writeMetadata (start_id : Nat) (metadatas : List MetaInput)
    (m : List (String × MetaRecord)) : List (String × MetaRecord) :=
  (metadatas.enum).foldl
    (fun acc p =>
      metaInsert acc (toString ((start_id + p.1 : Nat) : Int))
        (buildRecord ((start_id + p.1 : Nat) : Int) p.2)) m

/-- `FAISSStore.upsert` (`faiss_store.py` lines 77-142).  An uncaught
`ValueError` is `Except.error`; it is raised during validation, before any
mutation, so the error case carries no new state. -/
def FAISSStore.upsert (s : FAISSStore) (items : List Item) :
    Except String UpsertResult :=
  if items.isEmpty then .ok { count := 0, store := s, persisted := false }
  else
    match collectItems s.dimension items with
    | .error e => .error e
    | .ok (embeddings, metadatas) =>
      if embeddings.isEmpty then
        .ok { count := 0, store := s, persisted := false }
      else
        .ok { count := embeddings.length,
              store := { s with
                index := s.index ++ embeddings,
                metadata := writeMetadata s.index.length metadatas s.metadata },
              persisted := true }

/-- Inner product of two vectors (`faiss.IndexFlatIP` similarity). -/
def dot (a b : List ℚ) : ℚ := (List.zipWith (fun x y => x * y) a b).sum

/-- Ordering of scored candidates: descending score, ties by ascending id
(FAISS leaves tie order unspecified; ascending id is the modelling
choice). -/
def scoreOrder (a b : ℚ × Int) : Prop :=
  b.1 < a.1 ∨ (a.1 = b.1 ∧ a.2 ≤ b.2)

instance : DecidableRel scoreOrder := fun a b =>
  inferInstanceAs (Decidable (b.1 < a.1 ∨ (a.1 = b.1 ∧ a.2 ≤ b.2)))

/-- Exact search of `faiss.IndexFlatIP` with one query: every stored
vector scored by inner product, sorted by `scoreOrder`, truncated to `k`.
Ids are the insertion positions; no `-1` padding occurs because callers
clamp `k` to `ntotal`. -/
def searchIndex (index : List (List ℚ)) (q : List ℚ) (k : Nat) : List (ℚ × Int) :=
  ((index.enum.map (fun p => (dot q p.2, (p.1 : Int)))).insertionSort scoreOrder).take k

/-- One result dict of `FAISSStore.search`:
`{'vector_id': idx, 'score': score, **metadata}`; `meta = none` models the
empty merge when `str(idx)` has no metadata entry. -/
structure SearchResult where
  vector_id : Int
  score : ℚ
  meta : Option MetaRecord
deriving DecidableEq

/-- The body of the result loop of `search`: skip the `-1` sentinel, else
merge the score with the metadata lookup (`faiss_store.py` lines 162-173). -/
def mkSearchResult (md : List (String × MetaRecord)) (p : ℚ × Int) :
    Option SearchResult :=
  if p.2 = -1 then none
  else some { vector_id := p.2, score := p.1,
              meta := metaLookup md (toString p.2) }

/-- `FAISSStore.search` (`faiss_store.py` lines 144-175): empty list on an
empty index, `search_k = min top_k ntotal`, `-1` ids skipped, each kept id
merged with `self.metadata.get(str(idx), {})`. -/
def FAISSStore.search (s : FAISSStore) (q : List ℚ) (top_k : Nat) :
    List SearchResult :=
  if s.index.length = 0 then []
  else
    let search_k := min top_k s.index.length
    (searchIndex s.index q search_k).filterMap (mkSearchResult s.metadata)

/-- The vector an accepted embedding contributes to the index (a 2-d
batch contributes its first row). -/
def embVec : Embedding → List ℚ
  | .arr1 v => v
  | .arr2 m => m.headD []

/-- An item `upsert` handles without raising: embedding absent, or of the
configured dimension. -/
def validItem (dim : Nat) (it : Item) : Prop :=
  match it.embedding with
  | none => True
  | some (.arr1 v) => v.length = dim
  | some (.arr2 m) => (m.headD []).length = dim

instance (dim : Nat) (it : Item) : Decidable (validItem dim it) := by
  unfold validItem
  rcases it.embedding with _ | e
  · exact inferInstanceAs (Decidable True)
  · rcases e with v | m <;> exact Nat.decEq _ _

/-- Fold `upsert` over successive batches of items, as repeated calls on
the same store would; `none` when some call raises. -/
def upsertFrom (s : FAISSStore) (batches : List (List Item)) :
    Option FAISSStore :=
  batches.foldlM
    (fun s b => (s.upsert b).toOption.map (fun r => r.store)) s

/-- `N` sequential `upsert` calls starting from a fresh store. -/
def upsertAll (dim : Nat) (batches : List (List Item)) : Option FAISSStore :=
  upsertFrom (FAISSStore.empty dim) batches

/-- A result record as the retriever sees it: a Python dict read with
`.get`; `none` models an absent key.  `FAISSStore.search` results carry
`page_content` (not `content`), so `content` is absent for them. -/
structure RRec where
  vector_id : Option Int := none
  score : Option ℚ := none
  content : Option String := none
  file_name : Option String := none
  timestamp : Option String := none
  modality : Option String := none
  rerank_score : Option ℚ := none
deriving DecidableEq

/-- View of a `FAISSStore.search` result dict through the keys the
retriever reads (`{'vector_id': idx, 'score': s, **metadata}`; the stored
metadata has no `content` key). -/
def toRRec (r : SearchResult) : RRec where
  vector_id := some r.vector_id
  score := some r.score
  content := none
  file_name := r.meta.map (fun m => m.file_name)
  timestamp := r.meta.bind (fun m => m.timestamp)
  modality := r.meta.map (fun m => m.modality)
  rerank_score := none

/-- Python substring test `sub in hay` (true for the empty needle). -/
def containsSub (hay sub : List Char) : Bool :=
  sub.isPrefixOf hay ||
    match hay with
    | [] => false
    | _ :: t => containsSub t sub

/-- Python `str.lower()` (ASCII case folding suffices here). -/
def pyLower (l : List Char) : List Char := l.map Char.toLower

/-- Python `str.split()` with no argument: split on whitespace runs,
discarding empty pieces.  `acc` is the reversed current word. -/
def wsSplit : List Char → List Char → List (List Char)
  | [], acc => if acc.isEmpty then [] else [acc.reverse]
  | c :: rest, acc =>
    if c.isWhitespace then
      if acc.isEmpty then wsSplit rest [] else acc.reverse :: wsSplit rest []
    else wsSplit rest (c :: acc)

/-- Python truthiness of the `timestamp` value (`if timestamp:`). -/
def timestampTruthy : Option String → Bool
  | none => false
  | some s => ¬ s.data.isEmpty

/-- The boosted score assigned by `Retriever.rerank_results`
(`retriever.py` lines 44-68): raw score, `+0.1` for the lower-cased query
as a substring of the `content` value, `+0.05` for any whitespace token of
the lower-cased query inside the lower-cased `file_name`, `+0.02` for a
truthy `timestamp`, `+0.03` for modality `'image'`. -/
def rerankScore (query : String) (r : RRec) : ℚ :=
  let score := r.score.getD 0
  let content := pyLower (r.content.getD "").data
  let query_lower := pyLower query.data
  let s1 := if containsSub content query_lower then score + 1/10 else score
  let file_name := pyLower (r.file_name.getD "").data
  let s2 := if (wsSplit query_lower []).any (fun word => containsSub file_name word)
    then s1 + 1/20 else s1
  let s3 := if timestampTruthy r.timestamp then s2 + 1/50 else s2
  let modality := r.modality.getD "text"
  if modality = "image" then s3 + 3/100 else s3

/-- Sort key order of `results.sort(key=..., reverse=True)`: descending
`rerank_score` (default 0 for a missing key). -/
def rerankGE (a b : RRec) : Prop :=
  b.rerank_score.getD 0 ≤ a.rerank_score.getD 0

instance : DecidableRel rerankGE := fun a b =>
  inferInstanceAs (Decidable (b.rerank_score.getD 0 ≤ a.rerank_score.getD 0))

instance : IsTotal RRec rerankGE :=
  ⟨fun a b => le_total (b.rerank_score.getD 0) (a.rerank_score.getD 0)⟩

instance : IsTrans RRec rerankGE :=
  ⟨fun _ _ _ h1 h2 => le_trans h2 h1⟩

/-- The body of the rerank loop: store the boosted score under the
`rerank_score` key (`retriever.py` line 68). -/
def annotate (query : String) (r : RRec) : RRec :=
  { r with rerank_score := some (rerankScore query r) }

/-- `Retriever.rerank_results` (`retriever.py` lines 38-72): empty input
returned as is; otherwise every record gets `rerank_score` and the list is
stably sorted descending on it (Python `list.sort` and stable insertion
sort produce the same list). -/
def rerank_results (query : String) (results : List RRec) : List RRec :=
  if results.isEmpty then results
  else (results.map (annotate query)).insertionSort rerankGE

/-- The candidate list `Retriever.retrieve` builds before reranking
(`retriever.py` lines 22-30): embed the query, over-fetch
`search_k = min (top_k * 3) ntotal`, then the optional modality filter
`r.get('modality') == modality_filter`. -/
def retrieveCandidates (store : FAISSStore) (embed_text : String → List ℚ)
    (query_text : String) (top_k : Nat) (modality_filter : Option String) :
    List RRec :=
  let query_embedding := embed_text query_text
  let search_k := min (top_k * 3) store.index.length
  let results := (store.search query_embedding search_k).map toRRec
  match modality_filter with
  | none => results
  | some m => results.filter (fun r => r.modality = some m)

/-- `Retriever.retrieve` (`retriever.py` lines 19-36): candidates, rerank,
truncate to `top_k`.  There is no `min_score` parameter and no score
threshold anywhere in the pipeline. -/
def retrieve (store : FAISSStore) (embed_text : String → List ℚ)
    (query_text : String) (top_k : Nat) (modality_filter : Option String) :
    List RRec :=
  (rerank_results query_text
    (retrieveCandidates store embed_text query_text top_k modality_filter)).take top_k

/-- Metadata of the session-A item of the repository's isolation test. -/
def secretMeta : MetaInput := { page_content := some "Secret of Session A" }

/-- The session-A item of the repository's isolation test. -/
def itemA : Item := { embedding := some (.arr1 [1, 0]), metadata := secretMeta }

/-- Store state after upserting `itemA` into a fresh 2-dimensional store. -/
def storeA : FAISSStore where
  dimension := 2
  index := [[1, 0]]
  metadata := [("0", buildRecord 0 secretMeta)]

/-- A store holding the raw (unnormalized) vector `[3, 4]`. -/
def store34 : FAISSStore where
  dimension := 2
  index := [[3, 4]]
  metadata := [("0", buildRecord 0 {})]

/-- A store whose index holds a vector with no metadata entry. -/
def storeBare : FAISSStore where
  dimension := 2
  index := [[1, 0]]
  metadata := []

/-- A store with one vector and its (default) metadata entry. -/
def store10 : FAISSStore where
  dimension := 2
  index := [[1, 0]]
  metadata := [("0", buildRecord 0 {})]

/-- Items for the C4 witness: one without an embedding, one valid. -/
def itemsSkip : List Item :=
  [{ embedding := none }, { embedding := some (.arr1 [1, 0]) }]

/-- Item for the C4 witness: a 3-dimensional embedding for a 2-dimensional
store. -/
def itemsBad : List Item := [{ embedding := some (.arr1 [1, 2, 3]) }]

/-- The record the C2 witness search returns: raw score 25. -/
def rec34 : SearchResult where
  vector_id := 0
  score := 25
  meta := some (buildRecord 0 {})

/-- The metadata-less record of the C5 witness. -/
def recBare : SearchResult where
  vector_id := 0
  score := 1
  meta := none

/-- Embedding stub for the C3 counterexample: every query embeds to
`[0, 1]`, orthogonal to the stored `[1, 0]`. -/
def embedOrtho : String → List ℚ := fun _ => [0, 1]

/-- A record with a timestamp and no other boost source, raw score 1/2. -/
def recTs : RRec := { score := some (1/2), timestamp := some "t" }

/-! Theorems. -/

/-- Range of a `rfindDot` result: the sentinel, or a position whose
successor stays inside the window. -/
theorem rfindDot_cases (t : List Char) (a b : Nat) :
    rfindDot t a b = -1 ∨
      ∃ i : Nat, rfindDot t a b = (i : Int) ∧ a ≤ i ∧ i + 1 ≤ b := by
  unfold rfindDot
  generalize List.range t.length = l
  suffices h : ∀ (l : List Nat) (acc : Int),
      (acc = -1 ∨ ∃ i : Nat, acc = (i : Int) ∧ a ≤ i ∧ i + 1 ≤ b) →
      (l.foldl (fun acc i =>
          if a ≤ i ∧ i + 2 ≤ b ∧ t.getD i 'x' = '.' ∧ t.getD (i + 1) 'x' = ' '
          then (i : Int) else acc) acc = -1 ∨
        ∃ i : Nat, l.foldl (fun acc i =>
          if a ≤ i ∧ i + 2 ≤ b ∧ t.getD i 'x' = '.' ∧ t.getD (i + 1) 'x' = ' '
          then (i : Int) else acc) acc = (i : Int) ∧ a ≤ i ∧ i + 1 ≤ b) by
    exact h l (-1) (Or.inl rfl)
  intro l
  induction l with
  | nil => intro acc h; exact h
  | cons x xs ih =>
    intro acc h
    apply ih
    by_cases hc : a ≤ x ∧ x + 2 ≤ b ∧ t.getD x 'x' = '.' ∧ t.getD (x + 1) 'x' = ' '
    · simp only [List.foldl, if_pos hc]
      exact Or.inr ⟨x, rfl, hc.1, by omega⟩
    · simpa only [if_neg hc] using h

/-- Range of a `rfindNl` result. -/
theorem rfindNl_cases (t : List Char) (a b : Nat) :
    rfindNl t a b = -1 ∨
      ∃ i : Nat, rfindNl t a b = (i : Int) ∧ a ≤ i ∧ i + 1 ≤ b := by
  unfold rfindNl
  generalize List.range t.length = l
  suffices h : ∀ (l : List Nat) (acc : Int),
      (acc = -1 ∨ ∃ i : Nat, acc = (i : Int) ∧ a ≤ i ∧ i + 1 ≤ b) →
      (l.foldl (fun acc i =>
          if a ≤ i ∧ i + 1 ≤ b ∧ t.getD i 'x' = '\n'
          then (i : Int) else acc) acc = -1 ∨
        ∃ i : Nat, l.foldl (fun acc i =>
          if a ≤ i ∧ i + 1 ≤ b ∧ t.getD i 'x' = '\n'
          then (i : Int) else acc) acc = (i : Int) ∧ a ≤ i ∧ i + 1 ≤ b) by
    exact h l (-1) (Or.inl rfl)
  intro l
  induction l with
  | nil => intro acc h; exact h
  | cons x xs ih =>
    intro acc h
    apply ih
    by_cases hc : a ≤ x ∧ x + 1 ≤ b ∧ t.getD x 'x' = '\n'
    · simp only [List.foldl, if_pos hc]
      exact Or.inr ⟨x, rfl, hc.1, hc.2.1⟩
    · simpa only [if_neg hc] using h

/-- Range of the combined boundary of `splitEnd`. -/
theorem boundary_cases (t : List Char) (a b : Nat) :
    max (rfindDot t a b) (rfindNl t a b) = -1 ∨
      ∃ i : Nat, max (rfindDot t a b) (rfindNl t a b) = (i : Int) ∧
        a ≤ i ∧ i + 1 ≤ b := by
  rcases max_choice (rfindDot t a b) (rfindNl t a b) with h | h <;> rw [h]
  · exact rfindDot_cases t a b
  · exact rfindNl_cases t a b

/-- A window never extends past `min (start + maxS) t.length`. -/
theorem splitEnd_le (t : List Char) (minS maxS start : Nat) :
    splitEnd t minS maxS start ≤ min (start + maxS) t.length := by
  simp only [splitEnd]
  split_ifs with h
  · rcases boundary_cases t start (min (start + maxS) t.length) with hb | ⟨i, hi, _, hib⟩
    · exact absurd hb h.1
    · rw [hi]; omega
  · exact le_refl _

/-- A window that stops before the end of the text is at least `minS`
characters long (given `minS ≤ maxS`). -/
theorem splitEnd_ge (t : List Char) (minS maxS start : Nat)
    (h1 : minS ≤ maxS) (h3 : splitEnd t minS maxS start < t.length) :
    start + minS ≤ splitEnd t minS maxS start := by
  simp only [splitEnd] at *
  split_ifs at * with h
  · rcases boundary_cases t start (min (start + maxS) t.length) with hb | ⟨i, hi, _, _⟩
    · exact absurd hb h.1
    · rw [hi] at h ⊢
      have := h.2
      omega
  · omega

/-- Dropping a prefix never lengthens a list. -/
theorem dropWhile_len_le (p : Char → Bool) (l : List Char) :
    (l.dropWhile p).length ≤ l.length := by
  induction l with
  | nil => simp
  | cons x xs ih =>
    by_cases h : p x
    · simp only [List.dropWhile, h, List.length_cons]
      omega
    · simp only [List.dropWhile, h]
      simp

/-- `pyStrip` never lengthens a list. -/
theorem pyStrip_length_le (l : List Char) : (pyStrip l).length ≤ l.length := by
  unfold pyStrip
  calc ((l.dropWhile isPyWs).reverse.dropWhile isPyWs).reverse.length
      = ((l.dropWhile isPyWs).reverse.dropWhile isPyWs).length := by
        rw [List.length_reverse]
    _ ≤ (l.dropWhile isPyWs).reverse.length := dropWhile_len_le _ _
    _ = (l.dropWhile isPyWs).length := by rw [List.length_reverse]
    _ ≤ l.length := dropWhile_len_le _ _

/-- Every chunk a successful `splitLoop` run emits is at most `maxS`
characters long (no hypotheses on the parameters). -/
theorem splitLoop_chunks_le (t : List Char) (minS maxS overlap : Nat) :
    ∀ (fuel start : Nat) (chunks : List (List Char)),
      splitLoop t minS maxS overlap fuel start = some chunks →
      ∀ c ∈ chunks, c.length ≤ maxS := by
  intro fuel
  induction fuel with
  | zero => intro start chunks h; simp [splitLoop] at h
  | succ fuel ih =>
    intro start chunks h c hc
    simp only [splitLoop] at h
    by_cases hs : start < t.length
    · rw [if_pos hs] at h
      have hchunk : (pyStrip ((t.drop start).take
          (splitEnd t minS maxS start - start))).length ≤ maxS := by
        have h1 := pyStrip_length_le ((t.drop start).take
          (splitEnd t minS maxS start - start))
        have h2 : ((t.drop start).take
            (splitEnd t minS maxS start - start)).length ≤
            splitEnd t minS maxS start - start := by
          simp [List.length_take]
        have h3 := splitEnd_le t minS maxS start
        omega
      by_cases he : splitEnd t minS maxS start = t.length
      · rw [if_pos he] at h
        simp only [Option.some.injEq] at h
        subst h
        by_cases hempty : (pyStrip ((t.drop start).take
            (splitEnd t minS maxS start - start))).isEmpty
        · simp [hempty] at hc
        · simp only [hempty, Bool.false_eq_true, if_false,
            List.mem_singleton] at hc
          subst hc; exact hchunk
      · rw [if_neg he] at h
        cases hrest : splitLoop t minS maxS overlap fuel
            (splitEnd t minS maxS start - overlap) with
        | none => rw [hrest] at h; simp at h
        | some rest =>
          rw [hrest] at h
          simp only [Option.some.injEq] at h
          subst h
          by_cases hempty : (pyStrip ((t.drop start).take
              (splitEnd t minS maxS start - start))).isEmpty
          · simp only [hempty, if_true] at hc
            exact ih _ _ hrest c hc
          · simp only [hempty, Bool.false_eq_true, if_false,
              List.mem_cons] at hc
            rcases hc with hc | hc
            · subst hc; exact hchunk
            · exact ih _ _ hrest c hc
    · rw [if_neg hs] at h
      simp only [Option.some.injEq] at h
      subst h
      simp at hc

/-- With `1 ≤ minS ≤ maxS` and `overlap < minS`, each loop iteration either
reaches the end of the text or advances `start` by at least
`minS - overlap ≥ 1`, so fuel `t.length - start + 1` suffices. -/
theorem splitLoop_isSome (t : List Char) (minS maxS overlap : Nat)
    (h1 : 1 ≤ minS) (h2 : minS ≤ maxS) (h3 : overlap < minS) :
    ∀ (fuel start : Nat), t.length - start < fuel →
      (splitLoop t minS maxS overlap fuel start).isSome := by
  intro fuel
  induction fuel with
  | zero => omega
  | succ fuel ih =>
    intro start hfuel
    simp only [splitLoop]
    by_cases hs : start < t.length
    · rw [if_pos hs]
      by_cases he : splitEnd t minS maxS start = t.length
      · simp [he]
      · have hlt : splitEnd t minS maxS start < t.length := by
          have := splitEnd_le t minS maxS start
          omega
        have hge := splitEnd_ge t minS maxS start h2 hlt
        have hrec := ih (splitEnd t minS maxS start - overlap) (by omega)
        rw [if_neg he]
        cases hrest : splitLoop t minS maxS overlap fuel
            (splitEnd t minS maxS start - overlap) with
        | none => rw [hrest] at hrec; simp at hrec
        | some rest => simp
    · simp [if_neg hs]

/-- Pairing of the sentinel fold and the `Option` fold for the ". "
boundary. -/
theorem rfindDot_eq_lastDot (t : List Char) (a b : Nat) :
    rfindDot t a b = (match lastDot t a b with
      | none => -1
      | some i => (i : Int)) := by
  unfold rfindDot lastDot
  generalize List.range t.length = l
  suffices h : ∀ (l : List Nat) (accI : Int) (accO : Option Nat),
      accI = (match accO with | none => -1 | some i => (i : Int)) →
      l.foldl (fun acc i =>
          if a ≤ i ∧ i + 2 ≤ b ∧ t.getD i 'x' = '.' ∧ t.getD (i + 1) 'x' = ' '
          then (i : Int) else acc) accI =
        (match l.foldl (fun acc i =>
          if a ≤ i ∧ i + 2 ≤ b ∧ t.getD i 'x' = '.' ∧ t.getD (i + 1) 'x' = ' '
          then some i else acc) accO with
          | none => -1 | some i => (i : Int)) by
    exact h l (-1) none rfl
  intro l
  induction l with
  | nil => intro accI accO h; exact h
  | cons x xs ih =>
    intro accI accO h
    by_cases hc : a ≤ x ∧ x + 2 ≤ b ∧ t.getD x 'x' = '.' ∧ t.getD (x + 1) 'x' = ' '
    · simp only [List.foldl, if_pos hc]
      exact ih _ _ rfl
    · simp only [List.foldl, if_neg hc]
      exact ih _ _ h

/-- Pairing of the sentinel fold and the `Option` fold for the newline
boundary. -/
theorem rfindNl_eq_lastNl (t : List Char) (a b : Nat) :
    rfindNl t a b = (match lastNl t a b with
      | none => -1
      | some i => (i : Int)) := by
  unfold rfindNl lastNl
  generalize List.range t.length = l
  suffices h : ∀ (l : List Nat) (accI : Int) (accO : Option Nat),
      accI = (match accO with | none => -1 | some i => (i : Int)) →
      l.foldl (fun acc i =>
          if a ≤ i ∧ i + 1 ≤ b ∧ t.getD i 'x' = '\n'
          then (i : Int) else acc) accI =
        (match l.foldl (fun acc i =>
          if a ≤ i ∧ i + 1 ≤ b ∧ t.getD i 'x' = '\n'
          then some i else acc) accO with
          | none => -1 | some i => (i : Int)) by
    exact h l (-1) none rfl
  intro l
  induction l with
  | nil => intro accI accO h; exact h
  | cons x xs ih =>
    intro accI accO h
    by_cases hc : a ≤ x ∧ x + 1 ≤ b ∧ t.getD x 'x' = '\n'
    · simp only [List.foldl, if_pos hc]
      exact ih _ _ rfl
    · simp only [List.foldl, if_neg hc]
      exact ih _ _ h

/-- The code's sentinel-based window end agrees with the claim's phrasing
of the rule at every position. -/
theorem splitEnd_eq_claim (t : List Char) (minS maxS start : Nat) :
    splitEnd t minS maxS start = claimWindowEnd t minS maxS start := by
  simp only [splitEnd, claimWindowEnd]
  rw [rfindDot_eq_lastDot, rfindNl_eq_lastNl]
  cases hd : lastDot t start (min (start + maxS) t.length) with
  | none =>
    cases hn : lastNl t start (min (start + maxS) t.length) with
    | none => simp [omax]
    | some j =>
      simp only [omax]
      by_cases hj : start + minS ≤ j + 1
      · rw [if_pos (by constructor <;> omega), if_pos hj]
        omega
      · rw [if_neg (by intro hcon; omega), if_neg hj]
  | some i =>
    cases hn : lastNl t start (min (start + maxS) t.length) with
    | none =>
      simp only [omax]
      by_cases hj : start + minS ≤ i + 1
      · rw [max_eq_left (by omega), if_pos (by constructor <;> omega), if_pos hj]
        omega
      · rw [max_eq_left (by omega), if_neg (by intro hcon; omega), if_neg hj]
    | some j =>
      simp only [omax]
      have hmax : max (i : Int) (j : Int) = ((max i j : Nat) : Int) := by
        omega
      rw [hmax]
      by_cases hj : start + minS ≤ max i j + 1
      · rw [if_pos (by constructor <;> omega), if_pos hj]
        omega
      · rw [if_neg (by intro hcon; omega), if_neg hj]

/-- `Nat.toDigitsCore` only prepends to its accumulator. -/
theorem toDigitsCore_append (f n : Nat) (l : List Char) :
    Nat.toDigitsCore 10 f n l = Nat.toDigitsCore 10 f n [] ++ l := by
  induction f generalizing n l with
  | zero => simp [Nat.toDigitsCore]
  | succ f ih =>
    simp only [Nat.toDigitsCore]
    by_cases h : n / 10 = 0
    · simp [h]
    · simp only [h, if_false]
      rw [ih (n / 10) (Nat.digitChar (n % 10) :: l),
        ih (n / 10) [Nat.digitChar (n % 10)]]
      simp

/-- Unfolding of `decChars` for a single digit. -/
theorem decChars_lt (n : Nat) (h : n < 10) : decChars n = [Nat.digitChar n] := by
  rw [decChars, if_pos h]

/-- Unfolding of `decChars` for a multi-digit number. -/
theorem decChars_ge (n : Nat) (h : 10 ≤ n) :
    decChars n = decChars (n / 10) ++ [Nat.digitChar (n % 10)] := by
  rw [decChars, if_neg (by omega)]

/-- With adequate fuel, `Nat.toDigitsCore` computes `decChars`. -/
theorem toDigitsCore_eq_decChars :
    ∀ f n : Nat, n < 10 ^ f → 0 < f →
      Nat.toDigitsCore 10 f n [] = decChars n := by
  intro f
  induction f with
  | zero => omega
  | succ f ih =>
    intro n h hpos
    simp only [Nat.toDigitsCore]
    by_cases h0 : n / 10 = 0
    · have hn : n < 10 := by omega
      rw [decChars_lt n hn, Nat.mod_eq_of_lt hn]
      simp [h0]
    · have hge : 10 ≤ n := by omega
      have hdiv : n / 10 < 10 ^ f := by
        rw [Nat.div_lt_iff_lt_mul (by omega)]
        calc n < 10 ^ (f + 1) := h
          _ = 10 ^ f * 10 := by ring
      have hfpos : 0 < f := by
        rcases Nat.eq_zero_or_pos f with hf | hf
        · subst hf; simp at h; omega
        · exact hf
      rw [if_neg h0, toDigitsCore_append, ih (n / 10) hdiv hfpos]
      rw [decChars_ge n hge]

/-- `decChars` never returns the empty list. -/
theorem decChars_ne_nil (n : Nat) : decChars n ≠ [] := by
  rw [decChars]
  split_ifs <;> simp

/-- `Nat.digitChar` is injective on single decimal digits. -/
theorem digitChar_inj10 :
    ∀ a, a < 10 → ∀ b, b < 10 → Nat.digitChar a = Nat.digitChar b → a = b := by
  decide

/-- Distinct naturals have distinct decimal digit strings. -/
theorem decChars_inj : ∀ n m : Nat, decChars n = decChars m → n = m := by
  intro n
  induction n using Nat.strong_induction_on with
  | _ n ih =>
    intro m h
    by_cases hn : n < 10 <;> by_cases hm : m < 10
    · rw [decChars_lt n hn, decChars_lt m hm] at h
      simp only [List.cons.injEq, and_true] at h
      exact digitChar_inj10 n hn m hm h
    · rw [decChars_lt n hn, decChars_ge m (by omega)] at h
      have hlen := congrArg List.length h
      simp only [List.length_singleton, List.length_append] at hlen
      have := decChars_ne_nil (m / 10)
      cases hd : decChars (m / 10) with
      | nil => exact absurd hd this
      | cons a as => rw [hd] at hlen; simp at hlen
    · rw [decChars_ge n (by omega), decChars_lt m hm] at h
      have hlen := congrArg List.length h
      simp only [List.length_singleton, List.length_append] at hlen
      have := decChars_ne_nil (n / 10)
      cases hd : decChars (n / 10) with
      | nil => exact absurd hd this
      | cons a as => rw [hd] at hlen; simp at hlen
    · rw [decChars_ge n (by omega), decChars_ge m (by omega)] at h
      have h2 := congrArg List.reverse h
      simp only [List.reverse_append, List.reverse_cons, List.reverse_nil,
        List.nil_append, List.singleton_append, List.cons.injEq] at h2
      have hmod : n % 10 = m % 10 :=
        digitChar_inj10 _ (Nat.mod_lt n (by omega)) _ (Nat.mod_lt m (by omega)) h2.1
      have hdiveq : decChars (n / 10) = decChars (m / 10) :=
        List.reverse_injective h2.2
      have hdiv : n / 10 = m / 10 :=
        ih (n / 10) (Nat.div_lt_self (by omega) (by omega)) (m / 10) hdiveq
      omega

/-- `Nat.repr` is injective. -/
theorem natRepr_inj (n m : Nat) (h : Nat.repr n = Nat.repr m) : n = m := by
  have hdata := congrArg String.data h
  simp only [Nat.repr, Nat.toDigits, List.asString] at hdata
  have hn : n < 10 ^ (n + 1) :=
    lt_of_lt_of_le (Nat.lt_pow_self (by omega) n)
      (Nat.pow_le_pow_right (by omega) (Nat.le_succ n))
  have hm : m < 10 ^ (m + 1) :=
    lt_of_lt_of_le (Nat.lt_pow_self (by omega) m)
      (Nat.pow_le_pow_right (by omega) (Nat.le_succ m))
  rw [toDigitsCore_eq_decChars (n + 1) n hn (by omega),
    toDigitsCore_eq_decChars (m + 1) m hm (by omega)] at hdata
  exact decChars_inj n m hdata

/-- Distinct nonnegative vector ids give distinct `str(vector_id)` keys. -/
theorem key_inj (a b : Nat)
    (h : toString ((a : Nat) : Int) = toString ((b : Nat) : Int)) : a = b := by
  have ha : toString ((a : Nat) : Int) = Nat.repr a := rfl
  have hb : toString ((b : Nat) : Int) = Nat.repr b := rfl
  exact natRepr_inj a b (ha ▸ hb ▸ h)

/-- The `Except` bind on a success just feeds the value on. -/
theorem except_bind_ok {ε α β : Type} (a : α) (f : α → Except ε β) :
    (do let x ← (Except.ok a : Except ε α); f x) = f a := rfl

/-- On an all-valid batch, the validation loop accepts exactly the items
that carry an embedding, in order. -/
theorem collectItems_ok (dim : Nat) :
    ∀ items : List Item, (∀ it ∈ items, validItem dim it) →
      collectItems dim items =
        .ok (items.filterMap (fun it => it.embedding.map embVec),
          (items.filter (fun it => it.embedding.isSome)).map
            (fun it => it.metadata)) := by
  intro items
  induction items with
  | nil => intro _; simp [collectItems]
  | cons it rest ih =>
    intro h
    have hit := h it (List.mem_cons_self it rest)
    have hrest := ih (fun x hx => h x (List.mem_cons_of_mem it hx))
    cases he : it.embedding with
    | none =>
      simp only [collectItems, he, hrest]
      simp [List.filterMap_cons, List.filter_cons, he]
    | some e =>
      cases e with
      | arr1 v =>
        have hv : v.length = dim := by
          unfold validItem at hit; rw [he] at hit; exact hit
        simp only [collectItems, he]
        rw [if_neg (show ¬ v.length ≠ dim by omega), hrest, except_bind_ok]
        simp [List.filterMap_cons, List.filter_cons, he, embVec]
      | arr2 m =>
        have hv : (m.headD []).length = dim := by
          unfold validItem at hit; rw [he] at hit; exact hit
        simp only [collectItems, he]
        rw [if_neg (show ¬ (m.headD []).length ≠ dim by omega), hrest,
          except_bind_ok]
        simp [List.filterMap_cons, List.filter_cons, he, embVec]

/-- The `Except` bind on a failure propagates the failure. -/
theorem except_bind_err {ε α β : Type} (e : ε) (f : α → Except ε β) :
    (do let x ← (Except.error e : Except ε α); f x) = .error e := rfl

/-- A batch with an invalid embedding makes the validation loop raise
`ValueError`: it never succeeds. -/
theorem collectItems_notOk (dim : Nat) :
    ∀ items : List Item, (∃ it ∈ items, ¬ validItem dim it) →
      ∀ p, collectItems dim items ≠ .ok p := by
  intro items
  induction items with
  | nil => rintro ⟨it, hmem, _⟩; simp at hmem
  | cons it rest ih =>
    rintro ⟨bad, hmem, hbad⟩ p
    rcases List.mem_cons.1 hmem with rfl | hmem
    · cases he : bad.embedding with
      | none =>
        exact absurd (by unfold validItem; rw [he]; trivial) hbad
      | some e =>
        cases e with
        | arr1 v =>
          have hv : v.length ≠ dim := by
            unfold validItem at hbad; rw [he] at hbad; exact hbad
          simp only [collectItems, he]
          rw [if_pos hv]
          simp
        | arr2 m =>
          have hv : (m.headD []).length ≠ dim := by
            unfold validItem at hbad; rw [he] at hbad; exact hbad
          simp only [collectItems, he]
          rw [if_pos hv]
          simp
    · have hrest := ih ⟨bad, hmem, hbad⟩
      cases he : it.embedding with
      | none =>
        simp only [collectItems, he]
        exact hrest p
      | some em =>
        cases em with
        | arr1 v =>
          by_cases hv : v.length = dim
          · simp only [collectItems, he]
            rw [if_neg (show ¬ v.length ≠ dim by omega)]
            cases hres : collectItems dim rest with
            | error e => rw [except_bind_err]; simp
            | ok pr => exact absurd hres (hrest pr)
          · simp only [collectItems, he]
            rw [if_pos hv]
            simp
        | arr2 m =>
          by_cases hv : (m.headD []).length = dim
          · simp only [collectItems, he]
            rw [if_neg (show ¬ (m.headD []).length ≠ dim by omega)]
            cases hres : collectItems dim rest with
            | error e => rw [except_bind_err]; simp
            | ok pr => exact absurd hres (hrest pr)
          · simp only [collectItems, he]
            rw [if_pos hv]
            simp

/-- An invalid embedding anywhere in the batch aborts the whole `upsert`
call with a `ValueError` and no mutation. -/
theorem upsert_error (s : FAISSStore) (items : List Item)
    (hbad : ∃ it ∈ items, ¬ validItem s.dimension it) :
    ∃ e, s.upsert items = .error e := by
  have hne : ¬ items.isEmpty = true := by
    obtain ⟨it, hmem, _⟩ := hbad
    cases items with
    | nil => simp at hmem
    | cons a l => simp
  unfold FAISSStore.upsert
  rw [if_neg hne]
  cases hres : collectItems s.dimension items with
  | error e => exact ⟨e, rfl⟩
  | ok pr => exact absurd hres (collectItems_notOk s.dimension items hbad pr)

/-- Number of accepted embeddings = number of items that carry one. -/
theorem accepted_length (items : List Item) :
    (items.filterMap (fun it => it.embedding.map embVec)).length =
      (items.filter (fun it => it.embedding.isSome)).length := by
  induction items with
  | nil => simp
  | cons it rest ih =>
    cases he : it.embedding with
    | none => simp [List.filterMap_cons, List.filter_cons, he, ih]
    | some e => simp [List.filterMap_cons, List.filter_cons, he, ih]

/-- Dict assignment with a fresh key appends. -/
theorem metaInsert_notmem (m : List (String × MetaRecord)) (k : String)
    (v : MetaRecord) (h : ∀ p ∈ m, p.1 ≠ k) :
    metaInsert m k v = m ++ [(k, v)] := by
  unfold metaInsert
  rw [if_neg]
  intro hany
  rw [List.any_eq_true] at hany
  obtain ⟨p, hp, hpk⟩ := hany
  exact h p hp (by simpa using hpk)

/-- Writing a batch of metadata entries with fresh consecutive ids appends
them in order. -/
theorem writeMeta_fold (start : Nat) :
    ∀ (ms : List MetaInput) (j : Nat) (acc : List (String × MetaRecord)),
      (∀ p ∈ acc, ∃ n : Nat, n < start + j ∧ p.1 = toString ((n : Nat) : Int)) →
      (List.enumFrom j ms).foldl
        (fun acc p =>
          metaInsert acc (toString ((start + p.1 : Nat) : Int))
            (buildRecord ((start + p.1 : Nat) : Int) p.2)) acc
      = acc ++ (List.enumFrom j ms).map
          (fun p => (toString ((start + p.1 : Nat) : Int),
            buildRecord ((start + p.1 : Nat) : Int) p.2)) := by
  intro ms
  induction ms with
  | nil => intro j acc _; simp [List.enumFrom]
  | cons m rest ih =>
    intro j acc hacc
    have hfresh : ∀ p ∈ acc, p.1 ≠ toString ((start + j : Nat) : Int) := by
      intro p hp hkey
      obtain ⟨n, hn, hkn⟩ := hacc p hp
      have := key_inj n (start + j) (hkn ▸ hkey)
      omega
    simp only [List.enumFrom, List.foldl, List.map]
    rw [metaInsert_notmem _ _ _ hfresh]
    rw [ih (j + 1) (acc ++ [_]) ?hinv]
    · simp
    case hinv =>
      intro p hp
      rcases List.mem_append.1 hp with hp | hp
      · obtain ⟨n, hn, hkn⟩ := hacc p hp
        exact ⟨n, by omega, hkn⟩
      · simp only [List.mem_singleton] at hp
        subst hp
        exact ⟨start + j, by omega, rfl⟩

/-- All keys the metadata dict holds after `writeMetadata`, when the
existing keys are decimal ids below `start`. -/
theorem writeMetadata_eq (start : Nat) (ms : List MetaInput)
    (m : List (String × MetaRecord))
    (hkeys : ∀ p ∈ m, ∃ n : Nat, n < start ∧ p.1 = toString ((n : Nat) : Int)) :
    writeMetadata start ms m =
      m ++ (List.enumFrom 0 ms).map
        (fun p => (toString ((start + p.1 : Nat) : Int),
          buildRecord ((start + p.1 : Nat) : Int) p.2)) := by
  unfold writeMetadata List.enum
  exact writeMeta_fold start ms 0 m (by simpa using hkeys)

/-- Characterisation of a raising-free `upsert` call, with the metadata
write left as `writeMetadata` (no assumption on the existing keys). -/
theorem upsert_ok_basic (s : FAISSStore) (items : List Item)
    (hvalid : ∀ it ∈ items, validItem s.dimension it) :
    s.upsert items = .ok
      { count := (items.filter (fun it => it.embedding.isSome)).length,
        store := { s with
          index := s.index ++ items.filterMap (fun it => it.embedding.map embVec),
          metadata := writeMetadata s.index.length
            ((items.filter (fun it => it.embedding.isSome)).map
              (fun it => it.metadata)) s.metadata },
        persisted :=
          !(items.filterMap (fun it => it.embedding.map embVec)).isEmpty } := by
  unfold FAISSStore.upsert
  by_cases hempty : items.isEmpty
  · have : items = [] := List.isEmpty_iff.1 hempty
    subst this
    simp [writeMetadata, List.enum]
  · rw [if_neg hempty, collectItems_ok s.dimension items hvalid]
    dsimp only
    by_cases hacc : (items.filterMap (fun it => it.embedding.map embVec)).isEmpty
    · have hfilnil : items.filter (fun it => it.embedding.isSome) = [] := by
        have h1 := accepted_length items
        rw [List.isEmpty_iff.1 hacc] at h1
        simp only [List.length_nil] at h1
        exact List.length_eq_zero.1 h1.symm
      rw [if_pos hacc, List.isEmpty_iff.1 hacc, hfilnil]
      simp [writeMetadata, List.enum, List.enumFrom]
    · rw [if_neg (by simpa using hacc)]
      rw [accepted_length items]
      simp [hacc]

/-- Full characterisation of a raising-free `upsert` call when the
existing metadata keys are decimal ids below the element count (true of
every store reachable from empty): the new entries are appended. -/
theorem upsert_ok (s : FAISSStore) (items : List Item)
    (hvalid : ∀ it ∈ items, validItem s.dimension it)
    (hkeys : ∀ p ∈ s.metadata,
      ∃ n : Nat, n < s.index.length ∧ p.1 = toString ((n : Nat) : Int)) :
    s.upsert items = .ok
      { count := (items.filter (fun it => it.embedding.isSome)).length,
        store := { s with
          index := s.index ++ items.filterMap (fun it => it.embedding.map embVec),
          metadata := s.metadata ++
            (List.enumFrom 0 ((items.filter (fun it => it.embedding.isSome)).map
              (fun it => it.metadata))).map
              (fun p => (toString ((s.index.length + p.1 : Nat) : Int),
                buildRecord ((s.index.length + p.1 : Nat) : Int) p.2)) },
        persisted :=
          !(items.filterMap (fun it => it.embedding.map embVec)).isEmpty } := by
  rw [upsert_ok_basic s items hvalid,
    writeMetadata_eq s.index.length _ s.metadata hkeys]

/-- Ids returned by the flat-index search are positions into the index,
and scores are the inner products at those positions. -/
theorem searchIndex_mem (index : List (List ℚ)) (q : List ℚ) (k : Nat)
    (p : ℚ × Int) (hp : p ∈ searchIndex index q k) :
    ∃ i : Nat, p.2 = (i : Int) ∧
      ∃ v, index.get? i = some v ∧ p.1 = dot q v := by
  unfold searchIndex at hp
  have hp2 := List.take_subset _ _ hp
  rw [List.mem_insertionSort] at hp2
  rw [List.mem_map] at hp2
  obtain ⟨a, ha, hfa⟩ := hp2
  rw [List.mem_enum_iff_get?] at ha
  exact ⟨a.1, by rw [← hfa], a.2, ha, by rw [← hfa]⟩

/-- The flat-index search returns `min k ntotal` scored pairs. -/
theorem searchIndex_length (index : List (List ℚ)) (q : List ℚ) (k : Nat) :
    (searchIndex index q k).length = min k index.length := by
  unfold searchIndex
  rw [List.length_take, List.length_insertionSort, List.length_map,
    List.enum_length]

/-- `search` on the empty index returns the empty list. -/
theorem search_empty (s : FAISSStore) (q : List ℚ) (k : Nat)
    (h : s.index = []) : s.search q k = [] := by
  unfold FAISSStore.search
  rw [if_pos (by rw [h]; rfl)]

/-- Every record `search` returns: nonnegative id that indexes the stored
vector whose inner product with the query is the score, and the metadata
field is exactly the dict lookup of `str(id)` (present or not). -/
theorem search_mem (s : FAISSStore) (q : List ℚ) (k : Nat)
    (r : SearchResult) (hr : r ∈ s.search q k) :
    (∃ i : Nat, r.vector_id = (i : Int) ∧
      ∃ v, s.index.get? i = some v ∧ r.score = dot q v) ∧
    r.meta = metaLookup s.metadata (toString r.vector_id) := by
  unfold FAISSStore.search at hr
  by_cases h : s.index.length = 0
  · rw [if_pos h] at hr; simp at hr
  · rw [if_neg h] at hr
    rw [List.mem_filterMap] at hr
    obtain ⟨p, hp, hfp⟩ := hr
    obtain ⟨i, hi, v, hv, hscore⟩ := searchIndex_mem _ _ _ p hp
    unfold mkSearchResult at hfp
    by_cases hneg : p.2 = -1
    · rw [if_pos hneg] at hfp; exact absurd hfp (by simp)
    · rw [if_neg hneg] at hfp
      obtain rfl := Option.some.inj hfp
      exact ⟨⟨i, hi, v, hv, hscore⟩, by simp⟩

/-- A run of result records over pairs free of the sentinel keeps every
pair. -/
theorem filterMap_mk_length (md : List (String × MetaRecord)) :
    ∀ l : List (ℚ × Int), (∀ p ∈ l, p.2 ≠ -1) →
      (l.filterMap (mkSearchResult md)).length = l.length := by
  intro l
  induction l with
  | nil => intro _; simp
  | cons p rest ih =>
    intro hl
    rw [List.filterMap_cons]
    unfold mkSearchResult
    rw [if_neg (hl p (List.mem_cons_self p rest))]
    simp only [List.length_cons]
    have := ih (fun x hx => hl x (List.mem_cons_of_mem p hx))
    unfold mkSearchResult at this
    rw [this]

/-- On a nonempty index nothing is dropped: `search` returns exactly
`min top_k ntotal` records. -/
theorem search_length (s : FAISSStore) (q : List ℚ) (k : Nat)
    (h : s.index ≠ []) : (s.search q k).length = min k s.index.length := by
  simp only [FAISSStore.search]
  rw [if_neg (by simpa using h)]
  rw [filterMap_mk_length s.metadata _ ?hIds]
  · rw [searchIndex_length]
    omega
  case hIds =>
    intro p hp
    obtain ⟨i, hi, _⟩ := searchIndex_mem s.index q (min k s.index.length) p hp
    rw [hi]
    omega

/-- Mapping a function of the position over an enumeration. -/
theorem enumFrom_fst_map {α β : Type} (g : Nat → β) :
    ∀ (ms : List α) (j : Nat),
      (List.enumFrom j ms).map (fun p => g p.1)
        = (List.range' j ms.length).map g := by
  intro ms
  induction ms with
  | nil => intro j; rfl
  | cons m rest ih =>
    intro j
    simp only [List.enumFrom, List.map, List.length_cons, List.range'_succ]
    rw [ih (j + 1)]

/-- One all-accepted batch of size `k` grows the index by `k` and appends
ids `len, …, len + k - 1`; `upsertFrom` preserves the id and key shape. -/
theorem upsertFrom_inv (dim k : Nat) :
    ∀ (batches : List (List Item)) (s : FAISSStore),
      s.dimension = dim →
      (∀ b ∈ batches, b.length = k ∧
        ∀ it ∈ b, ∃ v, it.embedding = some (.arr1 v) ∧ v.length = dim) →
      s.metadata.map (fun p => p.1)
        = (List.range s.index.length).map
            (fun n => toString ((n : Nat) : Int)) →
      s.metadata.map (fun p => p.2.vector_id)
        = (List.range s.index.length).map Int.ofNat →
      ∃ s2, upsertFrom s batches = some s2 ∧
        s2.index.length = s.index.length + batches.length * k ∧
        s2.metadata.map (fun p => p.1)
          = (List.range s2.index.length).map
              (fun n => toString ((n : Nat) : Int)) ∧
        s2.metadata.map (fun p => p.2.vector_id)
          = (List.range s2.index.length).map Int.ofNat := by
  intro batches
  induction batches with
  | nil =>
    intro s hdim hb hkeys hids
    exact ⟨s, rfl, by simp, hkeys, hids⟩
  | cons b bs ih =>
    intro s hdim hb hkeys hids
    obtain ⟨hlen, hemb⟩ := hb b (List.mem_cons_self b bs)
    have hvalid : ∀ it ∈ b, validItem s.dimension it := by
      intro it hit
      obtain ⟨v, hv, hvd⟩ := hemb it hit
      unfold validItem
      rw [hv]
      omega
    have hsome : ∀ it ∈ b, it.embedding.isSome := by
      intro it hit
      obtain ⟨v, hv, _⟩ := hemb it hit
      rw [hv]; rfl
    have hfilter : b.filter (fun it => it.embedding.isSome) = b :=
      List.filter_eq_self.2 (fun it hit => hsome it hit)
    have hkeycond : ∀ p ∈ s.metadata,
        ∃ n : Nat, n < s.index.length ∧ p.1 = toString ((n : Nat) : Int) := by
      intro p hp
      have : p.1 ∈ s.metadata.map (fun p => p.1) := List.mem_map_of_mem _ hp
      rw [hkeys] at this
      rw [List.mem_map] at this
      obtain ⟨n, hn, hkey⟩ := this
      exact ⟨n, by simpa using List.mem_range.1 hn, hkey.symm⟩
    have hup := upsert_ok s b hvalid hkeycond
    have hacclen : (b.filterMap (fun it => it.embedding.map embVec)).length = k := by
      rw [accepted_length, hfilter, hlen]
    set newIndex := b.filterMap (fun it => it.embedding.map embVec) with hni
    set ms := (b.filter (fun it => it.embedding.isSome)).map
      (fun it => it.metadata) with hms
    have hmslen : ms.length = k := by
      rw [hms, List.length_map, hfilter, hlen]
    set s1 : FAISSStore := { s with
      index := s.index ++ newIndex,
      metadata := s.metadata ++
        (List.enumFrom 0 ms).map
          (fun p => (toString ((s.index.length + p.1 : Nat) : Int),
            buildRecord ((s.index.length + p.1 : Nat) : Int) p.2)) } with hs1
    have hs1len : s1.index.length = s.index.length + k := by
      rw [hs1]
      simp only [List.length_append]
      omega
    have hnewkeys : s1.metadata.map (fun p => p.1)
        = (List.range s1.index.length).map
            (fun n => toString ((n : Nat) : Int)) := by
      rw [hs1len, hs1]
      simp only [List.map_append, List.map_map]
      rw [hkeys]
      have hcomp : ((fun p => p.1) ∘
          (fun p : Nat × MetaInput =>
            (toString ((s.index.length + p.1 : Nat) : Int),
              buildRecord ((s.index.length + p.1 : Nat) : Int) p.2)))
          = fun p : Nat × MetaInput =>
              toString ((s.index.length + p.1 : Nat) : Int) := rfl
      rw [hcomp, enumFrom_fst_map
        (fun n => toString ((s.index.length + n : Nat) : Int)) ms 0, hmslen]
      rw [← List.range_eq_range', List.range_add, List.map_append,
        List.map_map]
      rfl
    have hnewids : s1.metadata.map (fun p => p.2.vector_id)
        = (List.range s1.index.length).map Int.ofNat := by
      rw [hs1len, hs1]
      simp only [List.map_append, List.map_map]
      rw [hids]
      have hcomp : ((fun p : String × MetaRecord => p.2.vector_id) ∘
          (fun p : Nat × MetaInput =>
            (toString ((s.index.length + p.1 : Nat) : Int),
              buildRecord ((s.index.length + p.1 : Nat) : Int) p.2)))
          = fun p : Nat × MetaInput => ((s.index.length + p.1 : Nat) : Int) := rfl
      rw [hcomp, enumFrom_fst_map
        (fun n => ((s.index.length + n : Nat) : Int)) ms 0, hmslen]
      rw [← List.range_eq_range', List.range_add, List.map_append,
        List.map_map]
      rfl
    have hstep : upsertFrom s (b :: bs) = upsertFrom s1 bs := by
      unfold upsertFrom
      simp only [List.foldlM]
      rw [hup]
      rfl
    obtain ⟨s2, hrun, hlen2, hkeys2, hids2⟩ :=
      ih s1 (by rw [hs1]; exact hdim)
        (fun x hx => hb x (List.mem_cons_of_mem b hx)) hnewkeys hnewids
    refine ⟨s2, by rw [hstep]; exact hrun, ?_, hkeys2, hids2⟩
    rw [hlen2, hs1len]
    simp only [List.length_cons]
    ring

/-- The four boosts of `rerank_results` are additive and independent:
`rerankScore` is the raw score plus one indicator term per boost. -/
theorem rerankScore_eq (query : String) (r : RRec) :
    rerankScore query r =
      r.score.getD 0 +
      (if containsSub (pyLower (r.content.getD "").data) (pyLower query.data)
        then 1/10 else 0) +
      (if (wsSplit (pyLower query.data) []).any
          (fun word => containsSub (pyLower (r.file_name.getD "").data) word)
        then 1/20 else 0) +
      (if timestampTruthy r.timestamp then 1/50 else 0) +
      (if r.modality.getD "text" = "image" then 3/100 else 0) := by
  simp only [rerankScore]
  split_ifs <;> ring

/-- Reranking permutes the annotated candidates: no record is dropped,
whatever its score. -/
theorem rerank_perm (query : String) (results : List RRec) :
    (rerank_results query results).Perm (results.map (annotate query)) := by
  unfold rerank_results
  by_cases h : results.isEmpty
  · rw [if_pos h]
    have : results = [] := List.isEmpty_iff.1 h
    subst this
    simp
  · rw [if_neg h]
    exact List.perm_insertionSort _ _

/-- The rerank output is sorted descending by `rerank_score`. -/
theorem rerank_sorted (query : String) (results : List RRec) :
    List.Sorted rerankGE (rerank_results query results) := by
  unfold rerank_results
  by_cases h : results.isEmpty
  · rw [if_pos h]
    have : results = [] := List.isEmpty_iff.1 h
    subst this
    simp
  · rw [if_neg h]
    exact List.sorted_insertionSort _ _

/-- Every rerank output record is an input record annotated with its
boosted score. -/
theorem rerank_mem (query : String) (results : List RRec) (r : RRec)
    (hr : r ∈ rerank_results query results) :
    ∃ r0 ∈ results, r = annotate query r0 := by
  have h := (rerank_perm query results).mem_iff.1 hr
  rw [List.mem_map] at h
  obtain ⟨r0, hr0, heq⟩ := h
  exact ⟨r0, hr0, heq.symm⟩

/-- C7: `ChunkSplitter.split` (`_split_text`) trims its input and returns
the empty sequence for empty or whitespace-only text; every emitted window
is at most `max_size` characters long; and the code's sentinel-based
window-end rule is exactly the claim's rule — end the window at the last
". " or newline inside it whenever that keeps the window at least
`min_size` characters long, else at `min (start + max_size) length`.  The
walk restarts at `end - ⌊max_size·overlap_ratio⌋` clamped to ≥ 0 and stops
at the end of the text, as `splitLoop` shows; `overlap` stands for the
floor already taken. -/
theorem c7_split_contract (text : List Char) (minS maxS overlap : Nat) :
    (pyStrip text = [] → splitText text minS maxS overlap = some []) ∧
    (∀ chunks, splitText text minS maxS overlap = some chunks →
      ∀ c ∈ chunks, c.length ≤ maxS) ∧
    (∀ start, splitEnd text minS maxS start
      = claimWindowEnd text minS maxS start) := by
  refine ⟨?_, ?_, fun start => splitEnd_eq_claim text minS maxS start⟩
  · intro h
    simp [splitText, h]
  · intro chunks h c hc
    simp only [splitText] at h
    by_cases hstrip : (pyStrip text).isEmpty
    · rw [if_pos hstrip] at h
      simp only [Option.some.injEq] at h
      subst h
      simp at hc
    · rw [if_neg hstrip] at h
      exact splitLoop_chunks_le (pyStrip text) minS maxS overlap _ 0 chunks h c hc

/-- Witness for C7 at concrete inputs. -/
theorem c7_split_contract_witness :
    splitText "   ".data 200 500 100 = some [] ∧
    ∀ c ∈ ["ab.".data, "cd".data], c.length ≤ 4 :=
  ⟨(c7_split_contract "   ".data 200 500 100).1 (by decide),
    (c7_split_contract "ab. cd".data 1 4 0).2.1 ["ab.".data, "cd".data]
      (by decide)⟩

/-- C9: `_split_text` terminates whenever `1 ≤ min_size ≤ max_size` and
`⌊max_size·overlap_ratio⌋ < min_size`: each iteration either reaches the
end of the text or advances the window start by at least
`min_size - overlap ≥ 1` characters, so fuel `length + 1` suffices. -/
theorem c9_split_terminates (text : List Char) (minS maxS overlap : Nat)
    (h1 : 1 ≤ minS) (h2 : minS ≤ maxS) (h3 : overlap < minS) :
    (splitText text minS maxS overlap).isSome := by
  unfold splitText
  by_cases h : (pyStrip text).isEmpty
  · rw [if_pos h]
    rfl
  · rw [if_neg h]
    exact splitLoop_isSome (pyStrip text) minS maxS overlap h1 h2 h3 _ 0
      (by omega)

/-- Witness for C9 at a concrete input (the repository defaults
`min_size = 200`, `max_size = 500`, `overlap = ⌊500·0.2⌋ = 100`). -/
theorem c9_split_terminates_witness :
    (1 ≤ 200 ∧ 200 ≤ 500 ∧ 100 < 200) ∧
    (splitText "It works. Fine".data 200 500 100).isSome :=
  ⟨by omega, c9_split_terminates "It works. Fine".data 200 500 100
    (by omega) (by omega) (by omega)⟩

/-- C10: `upsert` with an empty items list, or with items that all lack an
embedding, returns 0 and performs no mutation: the store state is returned
unchanged and nothing is persisted to disk (`persisted = false`, since the
save calls run only after at least one embedding is accepted). -/
theorem c10_empty_upsert_noop (s : FAISSStore) (items : List Item)
    (h : items = [] ∨ ∀ it ∈ items, it.embedding = none) :
    s.upsert items = .ok { count := 0, store := s, persisted := false } := by
  rcases h with rfl | hnone
  · unfold FAISSStore.upsert
    rw [if_pos (show ([] : List Item).isEmpty = true from rfl)]
  · by_cases hemp : items.isEmpty
    · unfold FAISSStore.upsert
      rw [if_pos hemp]
    · have hvalid : ∀ it ∈ items, validItem s.dimension it := by
        intro it hit
        unfold validItem
        rw [hnone it hit]
        trivial
      have hcoll := collectItems_ok s.dimension items hvalid
      have hfm : items.filterMap (fun it => it.embedding.map embVec) = [] := by
        rw [List.filterMap_eq_nil]
        intro it hit
        rw [hnone it hit]
        rfl
      have hfl : items.filter (fun it => it.embedding.isSome) = [] := by
        rw [List.filter_eq_nil]
        intro it hit
        rw [hnone it hit]
        simp
      rw [hfm, hfl] at hcoll
      unfold FAISSStore.upsert
      rw [if_neg hemp, hcoll]
      rfl

/-- Witness for C10 at concrete inputs: both the empty call and the
all-`None` call leave a fresh store untouched. -/
theorem c10_empty_upsert_noop_witness :
    (FAISSStore.empty 2).upsert []
      = .ok { count := 0, store := FAISSStore.empty 2, persisted := false } ∧
    (FAISSStore.empty 2).upsert [{ embedding := none }]
      = .ok { count := 0, store := FAISSStore.empty 2, persisted := false } :=
  ⟨c10_empty_upsert_noop (FAISSStore.empty 2) [] (Or.inl rfl),
    c10_empty_upsert_noop (FAISSStore.empty 2) [{ embedding := none }]
      (Or.inr (by decide))⟩

/-- C8: starting from an empty store, after each prefix of `i ≤ N`
sequential `upsert` calls that each insert `k` accepted items, the index
holds exactly `i·k` vectors — so every batch's ids start at the current
element count — and the assigned `vector_id`s are exactly
`0, …, i·k - 1` in order, with no gaps and no duplicates. -/
theorem c8_monotonic_ids (dim k : Nat) (batches : List (List Item))
    (hb : ∀ b ∈ batches, b.length = k ∧
      ∀ it ∈ b, ∃ v, it.embedding = some (.arr1 v) ∧ v.length = dim) :
    ∀ i ≤ batches.length, ∃ s : FAISSStore,
      upsertAll dim (batches.take i) = some s ∧
      s.index.length = i * k ∧
      s.metadata.map (fun p => p.2.vector_id)
        = (List.range (i * k)).map Int.ofNat := by
  intro i hi
  have htk : (batches.take i).length = i := by
    rw [List.length_take]
    omega
  obtain ⟨s2, hrun, hlen, _, hids⟩ := upsertFrom_inv dim k (batches.take i)
    (FAISSStore.empty dim) rfl
    (fun b hbmem => hb b (List.take_subset i batches hbmem))
    (by simp [FAISSStore.empty]) (by simp [FAISSStore.empty])
  have hlen2 : s2.index.length = i * k := by
    rw [hlen, htk]
    simp [FAISSStore.empty]
  refine ⟨s2, hrun, hlen2, ?_⟩
  rw [hids, hlen2]

/-- Witness for C8: two batches of one accepted item each into a fresh
1-dimensional store give ids `{0, 1}`. -/
theorem c8_monotonic_ids_witness :
    ∃ s : FAISSStore,
      upsertAll 1 [[{ embedding := some (.arr1 [1]) }],
        [{ embedding := some (.arr1 [2]) }]] = some s ∧
      s.index.length = 2 * 1 ∧
      s.metadata.map (fun p => p.2.vector_id)
        = (List.range (2 * 1)).map Int.ofNat := by
  have h := c8_monotonic_ids 1 1
    [[{ embedding := some (.arr1 [1]) }], [{ embedding := some (.arr1 [2]) }]]
    ?hb 2 (by simp)
  · simpa using h
  case hb =>
    intro b hbm
    simp only [List.mem_cons, List.mem_singleton] at hbm
    rcases hbm with rfl | rfl | h
    · exact ⟨rfl, by
        intro it hit
        simp only [List.mem_singleton] at hit
        subst hit
        exact ⟨[1], rfl, rfl⟩⟩
    · exact ⟨rfl, by
        intro it hit
        simp only [List.mem_singleton] at hit
        subst hit
        exact ⟨[2], rfl, rfl⟩⟩
    · simp at h

/-- C1: the store has no session scoping at all — `upsert` and `search`
take no session argument (the repository's own session-isolation test and
`process_and_ingest_file` pass `session_id=`, which this signature
rejects), and all content lands in one shared index.  Concretely: a search
that returns nothing before an upsert made on behalf of session A returns
session A's record afterwards — so a search issued on behalf of any other
session B sees it too, and no search's result list is left unchanged. -/
theorem c1_shared_index_leaks_across_sessions :
    (FAISSStore.empty 2).search [1, 0] 5 = [] ∧
    (FAISSStore.empty 2).upsert [itemA]
      = .ok { count := 1, store := storeA, persisted := true } ∧
    storeA.search [1, 0] 5
      = [{ vector_id := 0, score := 1,
           meta := some (buildRecord 0 secretMeta) }] ∧
    storeA.search [1, 0] 5 ≠ (FAISSStore.empty 2).search [1, 0] 5 := by
  have hempty : (FAISSStore.empty 2).search [1, 0] 5 = [] :=
    search_empty (FAISSStore.empty 2) [1, 0] 5 rfl
  have hupsert : (FAISSStore.empty 2).upsert [itemA]
      = .ok { count := 1, store := storeA, persisted := true } := by decide
  have hsearch : storeA.search [1, 0] 5
      = [{ vector_id := 0, score := 1,
           meta := some (buildRecord 0 secretMeta) }] := by
    have htos : toString (0 : Int) = "0" := by decide
    norm_num [storeA, FAISSStore.search, searchIndex, dot, scoreOrder,
      mkSearchResult, metaLookup, List.enum, List.enumFrom,
      List.insertionSort, List.orderedInsert, List.filterMap, htos]
  refine ⟨hempty, hupsert, hsearch, ?_⟩
  rw [hsearch, hempty]
  simp

/-- C4 as stated is false: an ndarray embedding of mismatched dimension is
not skipped — `upsert` raises `ValueError` and aborts the whole call, so
the valid first item is not inserted and no count is returned. -/
theorem c4_dimension_mismatch_raises_cex :
    (FAISSStore.empty 2).upsert
      [{ embedding := some (.arr1 [1, 0]) },
       { embedding := some (.arr1 [1, 2, 3]) }]
      = .error ("Embedding dimension mismatch: got 3, expected 2. " ++
          "Ensure all embeddings use CLIP (512-dim).") := by
  decide

/-- C4 amended: `upsert` skips items whose embedding is `None` and inserts
the remaining items, returning the number actually inserted (which may be
less than the number of items passed); but an item whose ndarray embedding
has the wrong dimension makes `upsert` raise `ValueError`, aborting the
entire call with nothing inserted, rather than skipping that item. -/
theorem c4_upsert_skips_none_aborts_mismatch (s : FAISSStore)
    (items : List Item) :
    ((∀ it ∈ items, validItem s.dimension it) →
      ∃ res : UpsertResult, s.upsert items = .ok res ∧
        res.count = (items.filter (fun it => it.embedding.isSome)).length ∧
        res.store.index = s.index ++
          items.filterMap (fun it => it.embedding.map embVec)) ∧
    ((∃ it ∈ items, ¬ validItem s.dimension it) →
      ∃ e, s.upsert items = .error e) := by
  constructor
  · intro hvalid
    exact ⟨_, upsert_ok_basic s items hvalid, rfl, rfl⟩
  · exact upsert_error s items

/-- Witness for C4 at concrete inputs: the `None` item is skipped while
the good item lands (count 1 of 2 items), and a mismatched item raises. -/
theorem c4_upsert_skips_none_aborts_mismatch_witness :
    (∃ res : UpsertResult,
      (FAISSStore.empty 2).upsert itemsSkip = .ok res ∧
      res.count = (itemsSkip.filter (fun it => it.embedding.isSome)).length ∧
      res.store.index = ([] : List (List ℚ)) ++
        itemsSkip.filterMap (fun it => it.embedding.map embVec)) ∧
    (∃ e, (FAISSStore.empty 2).upsert itemsBad = .error e) :=
  ⟨(c4_upsert_skips_none_aborts_mismatch (FAISSStore.empty 2) itemsSkip).1
      (by decide),
   (c4_upsert_skips_none_aborts_mismatch (FAISSStore.empty 2) itemsBad).2
      ⟨{ embedding := some (.arr1 [1, 2, 3]) }, by decide, by decide⟩⟩

/-- C2 as stated is false: `upsert` inserts the raw vector `[3, 4]`
unchanged — its self inner product (squared L2 norm) is 25, not 1 — and
`search` scores the raw query against it: the returned similarity is 25,
impossible had either side been L2-normalized. -/
theorem c2_upsert_search_do_not_normalize_cex :
    (FAISSStore.empty 2).upsert [{ embedding := some (.arr1 [3, 4]) }]
      = .ok { count := 1, store := store34, persisted := true } ∧
    dot [3, 4] [3, 4] = 25 ∧ (25 : ℚ) ≠ 1 ∧
    (store34.search [3, 4] 1).map (fun r => r.score) = [25] := by
  refine ⟨by decide, by norm_num [dot], by norm_num, ?_⟩
  norm_num [store34, FAISSStore.search, searchIndex, dot, scoreOrder,
    mkSearchResult, metaLookup, List.enum, List.enumFrom, List.insertionSort,
    List.orderedInsert, List.filterMap]

/-- C2 amended: the store applies no L2 normalization anywhere — `upsert`
inserts every accepted embedding into the index exactly as given, and
`search` scores are the raw inner products of the given query embedding
with the stored vectors (normalization, when any, is the embedding
producer's doing). -/
theorem c2_store_is_raw_no_normalization (s : FAISSStore) (v : List ℚ)
    (m : MetaInput) (q : List ℚ) (k : Nat) :
    (v.length = s.dimension →
      ∃ res : UpsertResult,
        s.upsert [{ embedding := some (.arr1 v), metadata := m }] = .ok res ∧
        res.store.index = s.index ++ [v]) ∧
    (∀ r ∈ s.search q k, ∃ i : Nat, r.vector_id = (i : Int) ∧
      ∃ w, s.index.get? i = some w ∧ r.score = dot q w) := by
  constructor
  · intro hdim
    have hvalid : ∀ it ∈ ([{ embedding := some (.arr1 v), metadata := m }] :
        List Item), validItem s.dimension it := by
      intro it hit
      simp only [List.mem_singleton] at hit
      subst hit
      unfold validItem
      exact hdim
    refine ⟨_, upsert_ok_basic s _ hvalid, ?_⟩
    simp [List.filterMap_cons, embVec]
  · intro r hr
    exact (search_mem s q k r hr).1

/-- Witness for C2 at concrete inputs: the raw `[3, 4]` goes in as is, and
the single record of a concrete search carries the raw inner product. -/
theorem c2_store_is_raw_no_normalization_witness :
    (∃ res : UpsertResult,
      store34.upsert [{ embedding := some (.arr1 [3, 4]), metadata := {} }]
        = .ok res ∧
      res.store.index = [[3, 4]] ++ [[3, 4]]) ∧
    (∃ i : Nat, rec34.vector_id = (i : Int) ∧
      ∃ w, store34.index.get? i = some w ∧ rec34.score = dot [3, 4] w) := by
  have h := c2_store_is_raw_no_normalization store34 [3, 4] {} [3, 4] 1
  have hsearch : store34.search [3, 4] 1 = [rec34] := by
    have htos : toString (0 : Int) = "0" := by decide
    norm_num [store34, rec34, FAISSStore.search, searchIndex, dot, scoreOrder,
      mkSearchResult, metaLookup, List.enum, List.enumFrom,
      List.insertionSort, List.orderedInsert, List.filterMap, htos]
  exact ⟨h.1 (by decide),
    h.2 rec34 (by rw [hsearch]; exact List.mem_singleton_self _)⟩

/-- C5 as stated is false: an id whose `str(id)` has no metadata entry is
not dropped — its record is returned carrying only `vector_id` and
`score` (the empty dict merge, `meta = none`). -/
theorem c5_missing_metadata_kept_cex :
    storeBare.search [1, 0] 5
      = [{ vector_id := 0, score := 1, meta := none }] ∧
    metaLookup storeBare.metadata "0" = none := by
  constructor
  · norm_num [storeBare, FAISSStore.search, searchIndex, dot, scoreOrder,
      mkSearchResult, metaLookup, List.enum, List.enumFrom,
      List.insertionSort, List.orderedInsert, List.filterMap]
  · rfl

/-- C5 amended: `search` returns the empty list on an empty index; the
`-1` sentinel never survives (every returned id is a nonnegative index
position); each record's metadata field is exactly the dict lookup of its
id — `none` when the id has no entry, the record being kept regardless:
on a nonempty index the output has exactly `min top_k ntotal` records,
none dropped. -/
theorem c5_search_result_hygiene (s : FAISSStore) (q : List ℚ) (k : Nat) :
    (s.index = [] → s.search q k = []) ∧
    (∀ r ∈ s.search q k, 0 ≤ r.vector_id ∧
      r.meta = metaLookup s.metadata (toString r.vector_id)) ∧
    (s.index ≠ [] → (s.search q k).length = min k s.index.length) := by
  refine ⟨search_empty s q k, ?_, search_length s q k⟩
  intro r hr
  obtain ⟨⟨i, hi, _⟩, hmeta⟩ := search_mem s q k r hr
  constructor
  · rw [hi]
    omega
  · exact hmeta

/-- Witness for C5 at concrete inputs: empty store searches empty; the
store with one unmatched vector keeps the metadata-less record and
returns `min 5 1` records. -/
theorem c5_search_result_hygiene_witness :
    (FAISSStore.empty 2).search [1, 0] 5 = [] ∧
    (0 ≤ recBare.vector_id ∧
      recBare.meta = metaLookup storeBare.metadata (toString recBare.vector_id)) ∧
    (storeBare.search [1, 0] 5).length = min 5 storeBare.index.length := by
  have hsearch : storeBare.search [1, 0] 5 = [recBare] := by
    norm_num [storeBare, recBare, FAISSStore.search, searchIndex, dot,
      scoreOrder, mkSearchResult, metaLookup, List.enum, List.enumFrom,
      List.insertionSort, List.orderedInsert, List.filterMap]
  exact ⟨(c5_search_result_hygiene (FAISSStore.empty 2) [1, 0] 5).1 rfl,
    (c5_search_result_hygiene storeBare [1, 0] 5).2.1 recBare
      (by rw [hsearch]; exact List.mem_singleton_self _),
    (c5_search_result_hygiene storeBare [1, 0] 5).2.2 (by simp [storeBare])⟩

/-- C3 as stated is false: `retrieve` has no `min_score` parameter and
applies no score threshold — a record whose raw similarity is 0 is
returned even though 0 is below any positive threshold such as 1/2. -/
theorem c3_no_threshold_cex :
    (retrieve store10 embedOrtho "q" 5 none).map (fun r => r.score)
      = [some 0] ∧
    (0 : ℚ) < 1/2 := by
  constructor
  · have htos : toString (0 : Int) = "0" := by decide
    norm_num [store10, retrieve, retrieveCandidates, rerank_results, annotate,
      toRRec, embedOrtho, FAISSStore.search, searchIndex, dot, scoreOrder,
      mkSearchResult, metaLookup, List.enum, List.enumFrom,
      List.insertionSort, List.orderedInsert, List.filterMap, htos]
  · norm_num

/-- C3 amended: `retrieve` has no `min_score` parameter and applies no
score threshold anywhere: its output is the reranked candidate list
truncated to `top_k`, the reranked list being a permutation of all the
(modality-filtered) search candidates whatever their scores; and an empty
index yields the empty list rather than an exception. -/
theorem c3_retrieve_applies_no_threshold (store : FAISSStore)
    (embed_text : String → List ℚ) (query : String) (top_k : Nat)
    (mf : Option String) :
    retrieve store embed_text query top_k mf
      = (rerank_results query
          (retrieveCandidates store embed_text query top_k mf)).take top_k ∧
    (rerank_results query
        (retrieveCandidates store embed_text query top_k mf)).Perm
      ((retrieveCandidates store embed_text query top_k mf).map
        (annotate query)) ∧
    (store.index = [] → retrieve store embed_text query top_k mf = []) := by
  refine ⟨rfl, rerank_perm _ _, ?_⟩
  intro h
  simp only [retrieve, retrieveCandidates]
  rw [search_empty store _ _ h]
  cases mf <;> simp [rerank_results]

/-- Witness for C3 at concrete inputs: the empty store retrieves the empty
list and the pipeline equation holds at the counterexample store. -/
theorem c3_retrieve_applies_no_threshold_witness :
    retrieve store10 embedOrtho "q" 5 none
      = (rerank_results "q"
          (retrieveCandidates store10 embedOrtho "q" 5 none)).take 5 ∧
    retrieve (FAISSStore.empty 2) embedOrtho "q" 5 none = [] :=
  ⟨(c3_retrieve_applies_no_threshold store10 embedOrtho "q" 5 none).1,
    (c3_retrieve_applies_no_threshold (FAISSStore.empty 2) embedOrtho
      "q" 5 none).2.2 rfl⟩

/-- C6 as stated is false: a record whose only boost source is a truthy
`timestamp` gets `rerank_score = 1/2 + 0.02 = 13/25`, not the raw `1/2`
the claim's list of boosts (content, file name, image) predicts — the
code also adds `+0.02` when `timestamp` is truthy. -/
theorem c6_timestamp_boost_cex :
    rerank_results "zzz" [recTs]
      = [{ score := some (1/2), timestamp := some "t",
           rerank_score := some (13/25) }] ∧
    (13/25 : ℚ) ≠ 1/2 := by
  constructor
  · have c1 : containsSub (pyLower []) (pyLower ['z', 'z', 'z']) = false := by
      decide
    have c2 : ¬ ∃ x ∈ wsSplit (pyLower ['z', 'z', 'z']) [],
        containsSub (pyLower []) x = true := by decide
    have c3 : timestampTruthy (some "t") = true := by decide
    have c4 : ¬ ("text" : String) = "image" := by decide
    have h : rerankScore "zzz" recTs = 13/25 := by
      rw [rerankScore_eq]
      norm_num [recTs, c1, c2, c3, c4]
    simp only [recTs, rerank_results, annotate, List.isEmpty, List.map,
      List.insertionSort, List.orderedInsert, h]
    simp [recTs] at h
    simp [h]
  · norm_num

/-- C6 amended: each survivor's `rerank_score` is its raw score plus
exactly FOUR additive boosts — `+0.10` for the lower-cased query as a
substring of the record's content, `+0.05` for any whitespace token of the
lower-cased query inside the lower-cased file name, `+0.02` for a truthy
`timestamp` (the boost the claim omits), and `+0.03` for modality
`'image'`; the output is sorted descending by `rerank_score`, is a
permutation of the annotated input (nothing dropped), and `retrieve`
truncates it to `top_k`. -/
theorem c6_rerank_boost_schedule (query : String) (results : List RRec)
    (store : FAISSStore) (embed_text : String → List ℚ) (top_k : Nat)
    (mf : Option String) :
    (∀ r ∈ rerank_results query results,
      r.rerank_score = some (r.score.getD 0 +
        (if containsSub (pyLower (r.content.getD "").data)
            (pyLower query.data) then 1/10 else 0) +
        (if (wsSplit (pyLower query.data) []).any
            (fun word => containsSub (pyLower (r.file_name.getD "").data) word)
          then 1/20 else 0) +
        (if timestampTruthy r.timestamp then 1/50 else 0) +
        (if r.modality.getD "text" = "image" then 3/100 else 0))) ∧
    List.Sorted rerankGE (rerank_results query results) ∧
    (rerank_results query results).Perm (results.map (annotate query)) ∧
    retrieve store embed_text query top_k mf
      = (rerank_results query
          (retrieveCandidates store embed_text query top_k mf)).take top_k := by
  refine ⟨?_, rerank_sorted query results, rerank_perm query results, rfl⟩
  intro r hr
  obtain ⟨r0, _, rfl⟩ := rerank_mem query results r hr
  show (annotate query r0).rerank_score = _
  simp only [annotate]
  rw [rerankScore_eq]

/-- Witness for C6 at a concrete input: the boost formula applied to the
timestamp-only record. -/
theorem c6_rerank_boost_schedule_witness :
    (annotate "zzz" recTs).rerank_score
      = some ((annotate "zzz" recTs).score.getD 0 +
        (if containsSub (pyLower ((annotate "zzz" recTs).content.getD "").data)
            (pyLower (String.data "zzz")) then 1/10 else 0) +
        (if (wsSplit (pyLower (String.data "zzz")) []).any
            (fun word => containsSub
              (pyLower ((annotate "zzz" recTs).file_name.getD "").data) word)
          then 1/20 else 0) +
        (if timestampTruthy (annotate "zzz" recTs).timestamp
          then 1/50 else 0) +
        (if (annotate "zzz" recTs).modality.getD "text" = "image"
          then 3/100 else 0)) := by
  have hmem : annotate "zzz" recTs ∈ rerank_results "zzz" [recTs] := by
    simp [rerank_results, List.insertionSort, List.orderedInsert]
  exact (c6_rerank_boost_schedule "zzz" [recTs] (FAISSStore.empty 2)
    embedOrtho 1 none).1 (annotate "zzz" recTs) hmem
